import Mathlib

set_option maxHeartbeats 1000000
set_option maxRecDepth 4000

/-!
Shallow embedding of the `madness-rs` library (`src/lib.rs`): a 64-team
single-elimination tournament codec, a bracket scorer, and the recursive
best-finish enumerator.

Conventions of the embedding:
* `u64` / `u8` values are embedded as `Nat`; no arithmetic here can overflow a
  `u8`/`u64` on the value ranges the source actually computes (`i ≤ 63`,
  `position = 2*i + d ≤ 127`), so plain `Nat` arithmetic coincides with the
  machine arithmetic.
* The bit test `x & (1 << i) != 0` of the source is embedded literally as
  `bitSet`.
* the 64-entry slot tables (`[Option<u8>; 64]`, `&mut [Option<u8>]`) are
  embedded as `List (Option Nat)`; a checked read `l.get? i` models Rust's
  panicking index operation, so an out-of-bounds access surfaces as `none`.
* `HashMap<Bracket, usize>` is embedded as an association list with the
  HashMap insert/get semantics (`BFinsert` replaces the entry for an existing
  key, otherwise appends; `BFlookup` finds the entry for a key).
* the recursion of `BestFinishes::calc` is embedded with a fuel parameter;
  `BestFinishes.calcRun` supplies fuel 64, which exceeds the recursion depth
  of every terminating run on a 64-slot table (each recursive call fills one
  absent slot of the table, and a panic consumes no further fuel).
-/

namespace Madness

/-- The bit test `(x & (1 << i)) != 0` used by the source for both the settled
mask and the decisions word. -/
def bitSet (x i : Nat) : Bool := x &&& (1 <<< i) != 0

/-- `COMPLETE_MASK: u64 = 0xFFFFFFFFFFFFFFFE` — bits 1..=63 set, bit 0 clear. -/
def COMPLETE_MASK : Nat := 0xFFFFFFFFFFFFFFFE

/-- `POINTS_PER_ROUND: [u8; 7] = [0, 1, 2, 3, 5, 8, 13]`. -/
def POINTS_PER_ROUND : List Nat := [0, 1, 2, 3, 5, 8, 13]

/-- `SEED_ORDER: [u8; 16]`. -/
def SEED_ORDER : List Nat := [1, 16, 8, 9, 5, 12, 4, 13, 6, 11, 3, 14, 7, 10, 2, 15]

/-- `seed_for_slot(slot) = SEED_ORDER[slot as usize % 16]`.  The index is `< 16`,
so the checked array access of the source never fails and `getD` is exact. -/
def seed_for_slot (slot : Nat) : Nat := SEED_ORDER.getD (slot % 16) 0

/-- Fueled floor-log2: `log2floorAux fuel n` halves `n` until it drops below 2;
with fuel `≥ n` this is the exact floor of the base-2 logarithm (see
`log2floor_spec`). -/
def log2floorAux : Nat → Nat → Nat
  | 0, _ => 0
  | fuel + 1, n => if 2 ≤ n then log2floorAux fuel (n / 2) + 1 else 0

/-- Floor of the base-2 logarithm (0 for inputs 0 and 1), kernel-computable. -/
def log2floor (n : Nat) : Nat := log2floorAux n n

/-- `round_num_for_slot(slot) = 7 - (f64::from(slot).log2().floor() as u8 + 1)`.
For `1 ≤ slot ≤ 255` the `f64` computation is exact and the floor of the log
agrees with `log2floor slot`; for `slot = 0` Rust's saturating float-to-int
cast turns `(-inf).floor()` into `0`, which `log2floor 0 = 0` also yields.
The subtraction `7 - depth` is `Nat` truncating, faithful for every
`slot ≤ 63` (the only arguments the library passes), where `depth ≤ 6`. -/
def round_num_for_slot (slot : Nat) : Nat := 7 - (log2floor slot + 1)

/-- The 0/1 decision value of game `i`:
`if (decisions & (1 << i)) == 0 { 0 } else { 1 }`. -/
def decBit (decisions i : Nat) : Nat := if bitSet decisions i then 1 else 0

/-- The body of the `for` loop of `Decisions::decision_team_slots`, processing
game index `i`: if game `i` is settled, record `Some(2*i + decision)` for a
first-round game (`i ≥ 32`), otherwise copy the entry already recorded for the
selected child `2*i + decision` (an in-range read: `2*i + d ≤ 63` when
`i < 32`). -/
def dtsStep (decisions mask i : Nat) (res : List (Option Nat)) : List (Option Nat) :=
  if bitSet mask i then
    res.set i
      (if 32 ≤ i then some (i * 2 + decBit decisions i)
       else res.getD (i * 2 + decBit decisions i) none)
  else res

/-- The loop `for i in (1..=63).rev()` of `decision_team_slots`: processes
indices `k, k-1, ..., 1`. -/
def dtsLoop (decisions mask : Nat) : Nat → List (Option Nat) → List (Option Nat)
  | 0, res => res
  | i + 1, res => dtsLoop decisions mask i (dtsStep decisions mask (i + 1) res)

/-- `Decisions::decision_team_slots`: decode a decisions word and a settled mask
into the 64-entry slot table (`[Option<u8>; 64]`, initially all `None`). -/
def decision_team_slots (decisions mask : Nat) : List (Option Nat) :=
  dtsLoop decisions mask 63 (List.replicate 64 none)

/-- `Bracket`: a fully-settled prediction, identified by its decisions word
(equality and hashing are by `decisions`). -/
structure Bracket where
  decisions : Nat
deriving DecidableEq

/-- `Bracket::points_for_decisions`: fold over the enumerated tournament table,
adding `POINTS_PER_ROUND[round] + seed` at every index where both tables hold
the same resolved identity.  The bracket's own table is its decoding under
`COMPLETE_MASK`. -/
def Bracket.points_for_decisions (self : Bracket) (tournament_team_slots : List (Option Nat)) : Nat :=
  tournament_team_slots.enum.foldl
    (fun acc p =>
      match p.2, (decision_team_slots self.decisions COMPLETE_MASK).getD p.1 none with
      | some t, some b =>
        if t = b then
          acc + POINTS_PER_ROUND.getD (round_num_for_slot p.1) 0 + seed_for_slot b
        else acc
      | _, _ => acc)
    0

/-- `BestFinishes`: wraps `possible_finishes: HashMap<Bracket, usize>`. -/
structure BestFinishes where
  possible_finishes : List (Bracket × Nat)
deriving DecidableEq

/-- HashMap insert: replace the entry of an existing key, else add the entry. -/
def BFinsert : List (Bracket × Nat) → Bracket → Nat → List (Bracket × Nat)
  | [], b, r => [(b, r)]
  | (k, v) :: rest, b, r =>
    if k = b then (b, r) :: rest else (k, v) :: BFinsert rest b r

/-- HashMap get: the value stored for key `b`, if any. -/
def BFlookup (m : List (Bracket × Nat)) (b : Bracket) : Option Nat :=
  (m.find? (fun p => decide (p.1 = b))).map (fun p => p.2)

/-- `BestFinishes::new()`. -/
def BestFinishes.new : BestFinishes := ⟨[]⟩

/-- One step of the `for_each` in `BestFinishes::merge`: insert `(b, rank)` from
`other` when `self` has no entry for `b` or a strictly larger one. -/
def mergeStep (acc : List (Bracket × Nat)) (p : Bracket × Nat) : List (Bracket × Nat) :=
  match BFlookup acc p.1 with
  | none => BFinsert acc p.1 p.2
  | some cur => if cur > p.2 then BFinsert acc p.1 p.2 else acc

/-- `BestFinishes::merge(&mut self, other)`, with the mutation made explicit:
fold `mergeStep` over `other`'s entries starting from `self`'s map. -/
def BestFinishes.merge (self other : BestFinishes) : BestFinishes :=
  ⟨other.possible_finishes.foldl mergeStep self.possible_finishes⟩

/-- One step of `BestFinishes::rankings`: push bracket `p.1` into bucket
`ret[p.2]`; the checked access models the panic when the rank is out of the
0..=4 range. -/
def rankStep (ret : List (List Bracket)) (p : Bracket × Nat) : Option (List (List Bracket)) :=
  if p.2 < ret.length then some (ret.set p.2 (ret.getD p.2 [] ++ [p.1])) else none

/-- `BestFinishes::rankings`: group the recorded brackets into the five rank
buckets. -/
def BestFinishes.rankings (self : BestFinishes) : Option (List (List Bracket)) :=
  self.possible_finishes.foldlM rankStep (List.replicate 5 [])

/-- Stable insertion of a scored bracket into a score-descending list: the new
element goes after every element of score `≥` its own. -/
def insertScoredDesc (x : Bracket × Nat) : List (Bracket × Nat) → List (Bracket × Nat)
  | [] => [x]
  | y :: ys => if y.2 < x.2 then x :: y :: ys else y :: insertScoredDesc x ys

/-- The stable descending sort
`tuples.sort_by(|(_, r1), (_, r2)| r2.cmp(r1))` of the source, realized as a
stable insertion sort (a stable sort's output is uniquely determined by the
comparator, so this is extensionally the source's merge sort). -/
def sortByScoreDesc (l : List (Bracket × Nat)) : List (Bracket × Nat) :=
  l.foldl (fun acc x => insertScoredDesc x acc) []

/-- The `rank` update of the leaf loop of `BestFinishes::calc`:
`if i > 0 && tuples[i - 1].1 != tuples[i].1 { rank = i; }`, with `prev` the
previous tuple's score (`none` exactly at index 0). -/
def rankUpd (prev : Option Nat) (s i rank : Nat) : Nat :=
  match prev with
  | none => rank
  | some ps => if ps ≠ s then i else rank

/-- The rank-assignment loop of the fully-resolved branch of
`BestFinishes::calc`: walk the sorted tuples with index `i`, the current
`rank`, and the previous score; a distinct score at index `i > 0` moves the
rank to `i`; as soon as the rank exceeds 4 the loop breaks, returning the
inserts made so far. -/
def rankLoop : List (Bracket × Nat) → Nat → Nat → Option Nat → List (Bracket × Nat) → List (Bracket × Nat)
  | [], _, _, _, acc => acc
  | (b, s) :: rest, i, rank, prev, acc =>
    if rankUpd prev s i rank > 4 then acc
    else rankLoop rest (i + 1) (rankUpd prev s i rank) (some s) (BFinsert acc b (rankUpd prev s i rank))

/-- The fully-resolved (`else`) branch of `BestFinishes::calc`: score every
bracket of the pool against the table, sort by score descending, assign
competition ranks, and record the brackets of rank ≤ 4. -/
def BestFinishes.calcLeaf (brackets : List Bracket) (tournament_team_slots : List (Option Nat)) : BestFinishes :=
  ⟨rankLoop
    (sortByScoreDesc (brackets.map (fun b => (b, b.points_for_decisions tournament_team_slots))))
    0 0 none []⟩

/-- `tournament_team_slots.into_iter().rposition(|x| x.is_none())`: the index of
the last absent slot, if any. -/
def rpositionNone (l : List (Option Nat)) : Option Nat :=
  (List.range l.length).reverse.find? (fun i => (l.getD i (some 0)).isNone)

/-- `BestFinishes::calc`, with the mutable buffer threaded explicitly (the
result carries the final state of the buffer) and checked reads for the two
child accesses `tts[idx * 2]`, `tts[idx * 2 + 1]`, whose `none` models the
panic of Rust's slice indexing.  The `set` writes are at `idx`, which
`rposition` guarantees in range.  `fuel` bounds the recursion depth. -/
def BestFinishes.calcFuel : Nat → List Bracket → List (Option Nat) → Option (BestFinishes × List (Option Nat))
  | 0, _, _ => none
  | fuel + 1, brackets, tts =>
    match rpositionNone tts with
    | none => some (BestFinishes.calcLeaf brackets tts, tts)
    | some idx =>
      if idx = 0 then some (BestFinishes.calcLeaf brackets tts, tts)
      else
        match tts.get? (idx * 2) with
        | none => none
        | some v0 =>
          match BestFinishes.calcFuel fuel brackets (tts.set idx v0) with
          | none => none
          | some (bf1, tts1) =>
            match tts1.get? (idx * 2 + 1) with
            | none => none
            | some v1 =>
              match BestFinishes.calcFuel fuel brackets (tts1.set idx v1) with
              | none => none
              | some (bf2, tts2) =>
                some ((BestFinishes.new.merge bf1).merge bf2, tts2.set idx none)

/-- `BestFinishes::calc` at fuel 64 (ample for every terminating run on the
64-slot tables the library passes). -/
def BestFinishes.calcRun (brackets : List Bracket) (tts : List (Option Nat)) : Option (BestFinishes × List (Option Nat)) :=
  BestFinishes.calcFuel 64 brackets tts

/-- The fold body of `points_for_decisions` as a function of one enumerated
entry. -/
def pointG (b : Bracket) (p : Nat × Option Nat) : Nat :=
  match p.2, (decision_team_slots b.decisions COMPLETE_MASK).getD p.1 none with
  | some t, some bb =>
    if t = bb then POINTS_PER_ROUND.getD (round_num_for_slot p.1) 0 + seed_for_slot bb
    else 0
  | _, _ => 0

/-- The contribution of game index `i` to `points_for_decisions b tts`. -/
def pointContrib (b : Bracket) (tts : List (Option Nat)) (i : Nat) : Nat :=
  pointG b (i, tts.getD i none)

/-- The pointwise minimum of two optional ranks: absence on one side defers to
the other side. -/
def minRank : Option Nat → Option Nat → Option Nat
  | none, r => r
  | some x, none => some x
  | some x, some y => some (min x y)

/-- Every rank recorded in a `BestFinishes` lies in `0..=4`. -/
abbrev RanksLe4 (bf : BestFinishes) : Prop := ∀ p ∈ bf.possible_finishes, p.2 ≤ 4

/-- A concrete fully-resolved outcome table (64 entries, index 0 unused):
`some 1` at the internal games 1..31 and the slot identity `2*i` at the
first-round games `i = 32..63`.  Against it a bracket scores
`1 + SEED_ORDER[2*i % 16]` for each first-round game `i` whose decision bit is
0, and nothing elsewhere; it realizes the score vector [50, 50, 40, 30, 30, 30]
of claim C3 at six concrete brackets. -/
def c3Table : List (Option Nat) :=
  none :: (List.replicate 31 (some 1) ++ (List.range 32).map (fun k => some (64 + 2 * k)))

/-- A concrete table, fully resolved except at the internal slot 1, on which
`calc` branches once and restores the buffer. -/
def c8Table : List (Option Nat) := none :: none :: List.replicate 62 (some 5)

theorem length_dtsStep (d m i : Nat) (res : List (Option Nat)) :
    (dtsStep d m i res).length = res.length := by
  unfold dtsStep
  split
  · exact List.length_set ..
  · rfl

theorem length_dtsLoop (d m : Nat) :
    ∀ (k : Nat) (res : List (Option Nat)), (dtsLoop d m k res).length = res.length := by
  intro k
  induction k with
  | zero => intro res; rfl
  | succ n ih => intro res; rw [dtsLoop, ih, length_dtsStep]

theorem getElem?_dtsStep_ne (d m i : Nat) (res : List (Option Nat)) {j : Nat} (h : j ≠ i) :
    (dtsStep d m i res)[j]? = res[j]? := by
  unfold dtsStep
  split
  · exact List.getElem?_set_ne (Ne.symm h)
  · rfl

theorem getElem?_dtsLoop_high (d m : Nat) :
    ∀ (k : Nat) (res : List (Option Nat)) {j : Nat}, k < j →
      (dtsLoop d m k res)[j]? = res[j]? := by
  intro k
  induction k with
  | zero => intro res j _; rfl
  | succ n ih =>
    intro res j hj
    rw [dtsLoop, ih _ (by omega), getElem?_dtsStep_ne d m _ res (by omega)]

theorem getElem?_dtsLoop_zero (d m : Nat) :
    ∀ (k : Nat) (res : List (Option Nat)), (dtsLoop d m k res)[0]? = res[0]? := by
  intro k
  induction k with
  | zero => intro res; rfl
  | succ n ih =>
    intro res
    rw [dtsLoop, ih, getElem?_dtsStep_ne d m _ res (by omega)]

theorem dtsLoop_getD (d m : Nat) :
    ∀ (k : Nat) (res : List (Option Nat)) (j : Nat), 1 ≤ j → j ≤ k → j < res.length →
      (dtsLoop d m k res).getD j none =
        if bitSet m j then
          (if 32 ≤ j then some (j * 2 + decBit d j)
           else (dtsLoop d m k res).getD (j * 2 + decBit d j) none)
        else res.getD j none := by
  intro k
  induction k with
  | zero => intro res j h1 h2 _; omega
  | succ n ih =>
    intro res j h1 h2 hlen
    rcases Nat.lt_or_ge j (n + 1) with hj | hj
    · -- j ≤ n: handled by the loop over 1..n on the stepped table
      rw [dtsLoop]
      have hlen' : j < (dtsStep d m (n + 1) res).length := by
        rw [length_dtsStep]; exact hlen
      rw [ih (dtsStep d m (n + 1) res) j h1 (by omega) hlen']
      by_cases hm : bitSet m j
      · rw [if_pos hm, if_pos hm]
      · rw [if_neg hm, if_neg hm, List.getD_eq_getElem?_getD, List.getD_eq_getElem?_getD,
          getElem?_dtsStep_ne d m _ res (by omega)]
    · -- j = n + 1: the value was written by the step for index n + 1 and is
      -- untouched by the remaining loop over 1..n
      have hj' : j = n + 1 := by omega
      subst hj'
      rw [dtsLoop]
      have huntouched :
          (dtsLoop d m n (dtsStep d m (n + 1) res)).getD (n + 1) none
            = (dtsStep d m (n + 1) res).getD (n + 1) none := by
        rw [List.getD_eq_getElem?_getD, List.getD_eq_getElem?_getD,
          getElem?_dtsLoop_high d m n _ (by omega)]
      rw [huntouched]
      unfold dtsStep
      by_cases hm : bitSet m (n + 1)
      · rw [if_pos hm, if_pos hm]
        have hset :
            ∀ v : Option Nat, (res.set (n + 1) v).getD (n + 1) none = v := by
          intro v
          rw [List.getD_eq_getElem?_getD, List.getElem?_set_self hlen]
          rfl
        rw [hset]
        by_cases h32 : 32 ≤ n + 1
        · rw [if_pos h32, if_pos h32]
        · rw [if_neg h32, if_neg h32]
          have hhigh :
              (dtsLoop d m n (if bitSet m (n + 1) then
                  res.set (n + 1)
                    (if 32 ≤ n + 1 then some ((n + 1) * 2 + decBit d (n + 1))
                     else res.getD ((n + 1) * 2 + decBit d (n + 1)) none)
                else res)).getD ((n + 1) * 2 + decBit d (n + 1)) none
              = res.getD ((n + 1) * 2 + decBit d (n + 1)) none := by
            rw [List.getD_eq_getElem?_getD, List.getD_eq_getElem?_getD,
              getElem?_dtsLoop_high d m n _ (by omega), if_pos hm, if_neg h32,
              List.getElem?_set_ne (by omega)]
          rw [if_pos hm, if_neg h32] at hhigh
          rw [hhigh]
      · rw [if_neg hm, if_neg hm]

theorem dts_length (d m : Nat) : (decision_team_slots d m).length = 64 := by
  unfold decision_team_slots
  rw [length_dtsLoop, List.length_replicate]

theorem dts_getD_zero (d m : Nat) : (decision_team_slots d m).getD 0 none = none := by
  unfold decision_team_slots
  rw [List.getD_eq_getElem?_getD, getElem?_dtsLoop_zero]
  rfl

theorem dts_getD (d m j : Nat) (h1 : 1 ≤ j) (h2 : j ≤ 63) :
    (decision_team_slots d m).getD j none =
      if bitSet m j then
        (if 32 ≤ j then some (j * 2 + decBit d j)
         else (decision_team_slots d m).getD (j * 2 + decBit d j) none)
      else none := by
  have h := dtsLoop_getD d m 63 (List.replicate 64 none) j h1 h2
    (by rw [List.length_replicate]; omega)
  unfold decision_team_slots
  rw [h]
  by_cases hm : bitSet m j
  · rw [if_pos hm, if_pos hm]
  · rw [if_neg hm, if_neg hm, List.getD_eq_getElem?_getD,
      List.getElem?_replicate_of_lt (by omega)]
    rfl

theorem log2floor_spec :
    ∀ n : Nat, n < 256 → 1 ≤ n →
      2 ^ log2floor n ≤ n ∧ n < 2 ^ (log2floor n + 1) := by decide

theorem bitSet_CM : ∀ j : Nat, j < 64 → 1 ≤ j → bitSet COMPLETE_MASK j = true := by decide

theorem decBit_le_one (d j : Nat) : decBit d j ≤ 1 := by
  unfold decBit
  split <;> omega

theorem dts_CM_isSome (d : Nat) :
    ∀ j, 1 ≤ j → j ≤ 63 →
      ((decision_team_slots d COMPLETE_MASK).getD j none).isSome = true := by
  have aux : ∀ (n j : Nat), 64 - j ≤ n → 1 ≤ j → j ≤ 63 →
      ((decision_team_slots d COMPLETE_MASK).getD j none).isSome = true := by
    intro n
    induction n with
    | zero => intro j hn h1 h2; omega
    | succ k ih =>
      intro j hn h1 h2
      rw [dts_getD d COMPLETE_MASK j h1 h2, if_pos (bitSet_CM j (by omega) h1)]
      by_cases h32 : 32 ≤ j
      · rw [if_pos h32]; rfl
      · rw [if_neg h32]
        have hd := decBit_le_one d j
        exact ih (j * 2 + decBit d j) (by omega) (by omega) (by omega)
  intro j h1 h2
  exact aux 64 j (by omega) h1 h2

theorem foldl_add_enumFrom (g : Nat × Option Nat → Nat) :
    ∀ (l : List (Option Nat)) (n a : Nat),
      (l.enumFrom n).foldl (fun acc p => acc + g p) a
        = a + Finset.sum (Finset.range l.length) (fun i => g (n + i, l.getD i none)) := by
  intro l
  induction l with
  | nil => intro n a; simp
  | cons x xs ih =>
    intro n a
    rw [List.enumFrom_cons, List.foldl_cons, ih (n + 1) (a + g (n, x))]
    rw [List.length_cons, Finset.sum_range_succ']
    have hsum :
        Finset.sum (Finset.range xs.length) (fun i => g (n + 1 + i, xs.getD i none))
          = Finset.sum (Finset.range xs.length)
              (fun i => g (n + (i + 1), (x :: xs).getD (i + 1) none)) := by
      refine Finset.sum_congr rfl (fun i _ => ?_)
      have harith : n + 1 + i = n + (i + 1) := by omega
      rw [List.getD_cons_succ, harith]
    rw [hsum]
    simp only [List.getD_cons_zero, Nat.add_zero]
    omega

theorem points_eq_sum (b : Bracket) (tts : List (Option Nat)) :
    b.points_for_decisions tts
      = Finset.sum (Finset.range tts.length) (fun i => pointContrib b tts i) := by
  unfold Bracket.points_for_decisions
  have hfun : (fun (acc : Nat) (p : Nat × Option Nat) =>
      match p.2, (decision_team_slots b.decisions COMPLETE_MASK).getD p.1 none with
      | some t, some bb =>
        if t = bb then
          acc + POINTS_PER_ROUND.getD (round_num_for_slot p.1) 0 + seed_for_slot bb
        else acc
      | _, _ => acc)
      = fun acc p => acc + pointG b p := by
    funext acc p
    rcases p with ⟨i, t⟩
    unfold pointG
    rcases t with _ | tv
    · simp
    · rcases hbb : (decision_team_slots b.decisions COMPLETE_MASK).getD i none with _ | bv
      · simp [hbb]
      · by_cases htv : tv = bv
        · simp [hbb, htv, Nat.add_assoc]
        · simp [hbb, htv]
  rw [hfun]
  show (tts.enumFrom 0).foldl _ 0 = _
  rw [foldl_add_enumFrom]
  simp only [Nat.zero_add]
  rfl

theorem rpositionNone_some {l : List (Option Nat)} {idx : Nat}
    (h : rpositionNone l = some idx) : idx < l.length ∧ l[idx]? = some none := by
  have hp := List.find?_some h
  have hm := List.mem_of_find?_eq_some h
  rw [List.mem_reverse, List.mem_range] at hm
  refine ⟨hm, ?_⟩
  have hsome := List.getElem?_eq_getElem hm
  rw [List.getD_eq_getElem?_getD, hsome] at hp
  simp only [Option.getD_some] at hp
  rw [Option.isNone_iff_eq_none] at hp
  rw [hsome, hp]

theorem rpositionNone_resolved {l : List (Option Nat)}
    (h : ∀ i, i < l.length → 1 ≤ i → (l.getD i none).isSome = true) :
    rpositionNone l = none ∨ rpositionNone l = some 0 := by
  rcases hr : rpositionNone l with _ | idx
  · exact Or.inl rfl
  · right
    obtain ⟨hlt, hnone⟩ := rpositionNone_some hr
    by_contra hne
    have hidx : 1 ≤ idx := by
      rcases Nat.eq_zero_or_pos idx with h0 | h0
      · exact absurd (h0 ▸ rfl) hne
      · exact h0
    have hs := h idx hlt hidx
    rw [List.getD_eq_getElem?_getD, hnone] at hs
    simp at hs

theorem set_self_of_getElem? : ∀ (l : List (Option Nat)) (i : Nat) (a : Option Nat),
    l[i]? = some a → l.set i a = l
  | [], _, _, h => by simp at h
  | x :: xs, 0, a, h => by
    simp only [List.getElem?_cons_zero, Option.some.injEq] at h
    rw [List.set_cons_zero, h]
  | x :: xs, i + 1, a, h => by
    rw [List.getElem?_cons_succ] at h
    rw [List.set_cons_succ, set_self_of_getElem? xs i a h]

theorem BFlookup_nil (k : Bracket) : BFlookup [] k = none := rfl

theorem BFlookup_cons (p : Bracket × Nat) (rest : List (Bracket × Nat)) (k : Bracket) :
    BFlookup (p :: rest) k = if p.1 = k then some p.2 else BFlookup rest k := by
  unfold BFlookup
  by_cases h : p.1 = k
  · rw [List.find?_cons_of_pos _ (by simpa using h), if_pos h]
    rfl
  · rw [List.find?_cons_of_neg _ (by simpa using h), if_neg h]

theorem BFlookup_insert (m : List (Bracket × Nat)) (b : Bracket) (r : Nat) (k : Bracket) :
    BFlookup (BFinsert m b r) k = if k = b then some r else BFlookup m k := by
  induction m with
  | nil =>
    show BFlookup [(b, r)] k = _
    rw [BFlookup_cons]
    by_cases h : k = b
    · rw [if_pos (by rw [h]), if_pos h]
    · rw [if_neg (fun hh => h hh.symm), if_neg h, BFlookup_nil]
  | cons p rest ih =>
    rcases p with ⟨k0, v0⟩
    show BFlookup (if k0 = b then (b, r) :: rest else (k0, v0) :: BFinsert rest b r) k = _
    by_cases h0 : k0 = b
    · rw [if_pos h0, BFlookup_cons]
      by_cases hk : k = b
      · rw [if_pos (by rw [hk]), if_pos hk]
      · rw [if_neg (fun hh => hk hh.symm), if_neg hk, h0, BFlookup_cons,
          if_neg (fun hh => hk hh.symm)]
    · rw [if_neg h0, BFlookup_cons, ih]
      by_cases hk0 : k0 = k
      · have hkb : ¬ k = b := fun hh => h0 (hk0.trans hh)
        rw [if_pos hk0, if_neg hkb, BFlookup_cons, if_pos hk0]
      · rw [if_neg hk0, BFlookup_cons, if_neg hk0]

theorem BFlookup_eq_none {m : List (Bracket × Nat)} {k : Bracket}
    (h : k ∉ m.map Prod.fst) : BFlookup m k = none := by
  induction m with
  | nil => rfl
  | cons p rest ih =>
    rw [List.map_cons, List.mem_cons, not_or] at h
    rw [BFlookup_cons, if_neg (fun hh => h.1 hh.symm)]
    exact ih h.2

theorem mem_BFinsert : ∀ (m : List (Bracket × Nat)) (b : Bracket) (r : Nat) (q : Bracket × Nat),
    q ∈ BFinsert m b r → q = (b, r) ∨ q ∈ m
  | [], b, r, q, h => by
    simp only [BFinsert, List.mem_singleton] at h
    exact Or.inl h
  | (k, v) :: rest, b, r, q, h => by
    simp only [BFinsert] at h
    by_cases hk : k = b
    · rw [if_pos hk] at h
      rcases List.mem_cons.mp h with h1 | h1
      · exact Or.inl h1
      · exact Or.inr (List.mem_cons_of_mem _ h1)
    · rw [if_neg hk] at h
      rcases List.mem_cons.mp h with h1 | h1
      · exact Or.inr (h1 ▸ List.mem_cons_self ..)
      · rcases mem_BFinsert rest b r q h1 with h2 | h2
        · exact Or.inl h2
        · exact Or.inr (List.mem_cons_of_mem _ h2)

theorem minRank_none_right : ∀ x : Option Nat, minRank x none = x := by
  intro x
  rcases x with _ | v <;> rfl

theorem BFlookup_mergeStep (acc : List (Bracket × Nat)) (p : Bracket × Nat) (k : Bracket) :
    BFlookup (mergeStep acc p) k
      = if k = p.1 then minRank (BFlookup acc k) (some p.2) else BFlookup acc k := by
  unfold mergeStep
  rcases hc : BFlookup acc p.1 with _ | cur
  · rw [BFlookup_insert]
    by_cases hk : k = p.1
    · rw [if_pos hk, if_pos hk, hk, hc]
      rfl
    · rw [if_neg hk, if_neg hk]
  · show BFlookup (if cur > p.2 then BFinsert acc p.1 p.2 else acc) k = _
    by_cases hcmp : cur > p.2
    · rw [if_pos hcmp, BFlookup_insert]
      by_cases hk : k = p.1
      · rw [if_pos hk, if_pos hk, hk, hc]
        show some p.2 = some (min cur p.2)
        rw [Nat.min_eq_right (Nat.le_of_lt hcmp)]
      · rw [if_neg hk, if_neg hk]
    · rw [if_neg hcmp]
      by_cases hk : k = p.1
      · rw [if_pos hk, hk, hc]
        show some cur = some (min cur p.2)
        rw [Nat.min_eq_left (by omega)]
      · rw [if_neg hk]

theorem merge_foldl_lookup :
    ∀ (other self : List (Bracket × Nat)), (other.map Prod.fst).Nodup → ∀ k : Bracket,
      BFlookup (other.foldl mergeStep self) k
        = minRank (BFlookup self k) (BFlookup other k) := by
  intro other
  induction other with
  | nil =>
    intro self _ k
    rw [List.foldl_nil, BFlookup_nil, minRank_none_right]
  | cons p rest ih =>
    intro self hnodup k
    rw [List.map_cons, List.nodup_cons] at hnodup
    rw [List.foldl_cons, ih _ hnodup.2 k, BFlookup_mergeStep, BFlookup_cons]
    by_cases hk : k = p.1
    · rw [if_pos hk, if_pos (by rw [hk]), hk, BFlookup_eq_none hnodup.1, minRank_none_right]
    · rw [if_neg hk, if_neg (fun hh => hk hh.symm)]

theorem rankLoop_le4 :
    ∀ (l : List (Bracket × Nat)) (i rank : Nat) (prev : Option Nat)
      (acc : List (Bracket × Nat)),
      (∀ q ∈ acc, q.2 ≤ 4) → ∀ q ∈ rankLoop l i rank prev acc, q.2 ≤ 4 := by
  intro l
  induction l with
  | nil => intro i rank prev acc hacc; exact hacc
  | cons x rest ih =>
    intro i rank prev acc hacc
    rcases x with ⟨b, s⟩
    rw [rankLoop]
    split
    · exact hacc
    · next hgt =>
      refine ih (i + 1) (rankUpd prev s i rank) (some s) _ ?_
      intro q hq
      rcases mem_BFinsert _ _ _ _ hq with h1 | h1
      · rw [h1]
        show rankUpd prev s i rank ≤ 4
        omega
      · exact hacc q h1

theorem calcLeaf_le4 (pool : List Bracket) (tts : List (Option Nat)) :
    RanksLe4 (BestFinishes.calcLeaf pool tts) := by
  intro q hq
  exact rankLoop_le4 _ 0 0 none [] (by simp) q hq

theorem merge_foldl_le4 :
    ∀ (other self : List (Bracket × Nat)),
      (∀ q ∈ self, q.2 ≤ 4) → (∀ q ∈ other, q.2 ≤ 4) →
      ∀ q ∈ other.foldl mergeStep self, q.2 ≤ 4 := by
  intro other
  induction other with
  | nil => intro self hs _ q hq; exact hs q hq
  | cons p rest ih =>
    intro self hs ho q hq
    rw [List.foldl_cons] at hq
    refine ih (mergeStep self p) ?_ (fun q2 hq2 => ho q2 (List.mem_cons_of_mem _ hq2)) q hq
    intro q2 hq2
    unfold mergeStep at hq2
    rcases hc : BFlookup self p.1 with _ | cur
    · simp only [hc] at hq2
      rcases mem_BFinsert _ _ _ _ hq2 with h1 | h1
      · rw [h1]
        exact ho p (List.mem_cons_self ..)
      · exact hs q2 h1
    · simp only [hc] at hq2
      split at hq2
      · rcases mem_BFinsert _ _ _ _ hq2 with h1 | h1
        · rw [h1]
          exact ho p (List.mem_cons_self ..)
        · exact hs q2 h1
      · exact hs q2 hq2

theorem merge_le4 {a b : BestFinishes} (ha : RanksLe4 a) (hb : RanksLe4 b) :
    RanksLe4 (a.merge b) := by
  intro q hq
  exact merge_foldl_le4 b.possible_finishes a.possible_finishes ha hb q hq

theorem new_le4 : RanksLe4 BestFinishes.new := by
  intro q hq
  simp [BestFinishes.new] at hq

theorem rankings_fold :
    ∀ (m : List (Bracket × Nat)) (ret0 : List (List Bracket)),
      (∀ q ∈ m, q.2 ≤ 4) → ret0.length = 5 →
      ∃ ret, m.foldlM rankStep ret0 = some ret ∧ ret.length = 5 ∧
        ∀ (br : Bracket) (r : Nat), r < 5 →
          (br ∈ ret.getD r [] ↔ br ∈ ret0.getD r [] ∨ (br, r) ∈ m) := by
  intro m
  induction m with
  | nil =>
    intro ret0 _ hlen
    exact ⟨ret0, rfl, hlen, fun br r _ => by simp⟩
  | cons p rest ih =>
    intro ret0 hle hlen
    have hp2 : p.2 ≤ 4 := hle p (List.mem_cons_self ..)
    have hstep : rankStep ret0 p = some (ret0.set p.2 (ret0.getD p.2 [] ++ [p.1])) := by
      unfold rankStep
      rw [if_pos (by omega)]
    have hlen1 : (ret0.set p.2 (ret0.getD p.2 [] ++ [p.1])).length = 5 := by
      rw [List.length_set, hlen]
    obtain ⟨ret, hfold, hlenr, hmem⟩ :=
      ih (ret0.set p.2 (ret0.getD p.2 [] ++ [p.1]))
        (fun q hq => hle q (List.mem_cons_of_mem _ hq)) hlen1
    refine ⟨ret, ?_, hlenr, ?_⟩
    · rw [List.foldlM_cons, hstep]
      simpa using hfold
    · intro br r hr
      rw [hmem br r hr]
      by_cases hrp : r = p.2
      · have hgetD : (ret0.set p.2 (ret0.getD p.2 [] ++ [p.1])).getD r []
            = ret0.getD r [] ++ [p.1] := by
          rw [hrp, List.getD_eq_getElem?_getD, List.getElem?_set_self (by omega)]
          rfl
        rw [hgetD]
        simp only [List.mem_append, List.mem_singleton, List.mem_cons, Prod.ext_iff, hrp]
        tauto
      · have hgetD : (ret0.set p.2 (ret0.getD p.2 [] ++ [p.1])).getD r []
            = ret0.getD r [] := by
          simp only [List.getD_eq_getElem?_getD]
          rw [List.getElem?_set_ne (fun hh => hrp hh.symm)]
        rw [hgetD]
        simp only [List.mem_cons, Prod.ext_iff]
        constructor
        · intro hcase
          rcases hcase with h1 | h1
          · exact Or.inl h1
          · exact Or.inr (Or.inr h1)
        · intro hcase
          rcases hcase with h1 | h1 | h1
          · exact Or.inl h1
          · exact absurd h1.2 hrp
          · exact Or.inr h1

theorem rankings_of_le4 {bf : BestFinishes} (h : RanksLe4 bf) :
    ∃ parts, bf.rankings = some parts ∧ parts.length = 5 ∧
      ∀ (br : Bracket) (r : Nat), r < 5 →
        (br ∈ parts.getD r [] ↔ (br, r) ∈ bf.possible_finishes) := by
  obtain ⟨ret, hfold, hlenr, hmem⟩ :=
    rankings_fold bf.possible_finishes (List.replicate 5 []) h (by simp)
  refine ⟨ret, hfold, hlenr, fun br r hr => ?_⟩
  rw [hmem br r hr]
  have hrep : (List.replicate 5 ([] : List Bracket)).getD r [] = [] := by
    rw [List.getD_eq_getElem?_getD, List.getElem?_replicate_of_lt hr]
    rfl
  rw [hrep]
  simp

theorem calcFuel_leaf (pool : List Bracket) (tts : List (Option Nat)) (fuel : Nat)
    (h : rpositionNone tts = none ∨ rpositionNone tts = some 0) :
    BestFinishes.calcFuel (fuel + 1) pool tts
      = some (BestFinishes.calcLeaf pool tts, tts) := by
  rcases h with h | h
  · simp only [BestFinishes.calcFuel, h]
  · simp only [BestFinishes.calcFuel, h, if_pos]

theorem calcFuel_table :
    ∀ (fuel : Nat) (pool : List Bracket) (tts : List (Option Nat)) (bf : BestFinishes)
      (ttsf : List (Option Nat)),
      BestFinishes.calcFuel fuel pool tts = some (bf, ttsf) → ttsf = tts := by
  intro fuel
  induction fuel with
  | zero =>
    intro pool tts bf ttsf h
    exact absurd h (by simp [BestFinishes.calcFuel])
  | succ n ih =>
    intro pool tts bf ttsf h
    simp only [BestFinishes.calcFuel] at h
    rcases hr : rpositionNone tts with _ | idx
    · simp only [hr, Option.some.injEq, Prod.mk.injEq] at h
      exact h.2.symm
    · simp only [hr] at h
      by_cases hidx : idx = 0
      · simp only [hidx, if_pos, Option.some.injEq, Prod.mk.injEq] at h
        exact h.2.symm
      · simp only [if_neg hidx] at h
        rcases hg0 : tts.get? (idx * 2) with _ | v0
        · simp only [hg0] at h
          exact Option.noConfusion h
        · simp only [hg0] at h
          rcases hc1 : BestFinishes.calcFuel n pool (tts.set idx v0) with _ | r1
          · simp only [hc1] at h
            exact Option.noConfusion h
          · obtain ⟨bf1, tts1⟩ := r1
            simp only [hc1] at h
            have e1 : tts1 = tts.set idx v0 := ih pool _ bf1 tts1 hc1
            rcases hg1 : tts1.get? (idx * 2 + 1) with _ | v1
            · simp only [hg1] at h
              exact Option.noConfusion h
            · simp only [hg1] at h
              rcases hc2 : BestFinishes.calcFuel n pool (tts1.set idx v1) with _ | r2
              · simp only [hc2] at h
                exact Option.noConfusion h
              · obtain ⟨bf2, ttsb⟩ := r2
                simp only [hc2, Option.some.injEq, Prod.mk.injEq] at h
                have e2 : ttsb = tts1.set idx v1 := ih pool _ bf2 ttsb hc2
                rw [← h.2, e2, e1, List.set_set, List.set_set]
                exact set_self_of_getElem? tts idx none (rpositionNone_some hr).2

theorem calcFuel_le4 :
    ∀ (fuel : Nat) (pool : List Bracket) (tts : List (Option Nat)) (bf : BestFinishes)
      (ttsf : List (Option Nat)),
      BestFinishes.calcFuel fuel pool tts = some (bf, ttsf) → RanksLe4 bf := by
  intro fuel
  induction fuel with
  | zero =>
    intro pool tts bf ttsf h
    exact absurd h (by simp [BestFinishes.calcFuel])
  | succ n ih =>
    intro pool tts bf ttsf h
    simp only [BestFinishes.calcFuel] at h
    rcases hr : rpositionNone tts with _ | idx
    · simp only [hr, Option.some.injEq, Prod.mk.injEq] at h
      rw [← h.1]
      exact calcLeaf_le4 pool tts
    · simp only [hr] at h
      by_cases hidx : idx = 0
      · simp only [hidx, if_pos, Option.some.injEq, Prod.mk.injEq] at h
        rw [← h.1]
        exact calcLeaf_le4 pool tts
      · simp only [if_neg hidx] at h
        rcases hg0 : tts.get? (idx * 2) with _ | v0
        · simp only [hg0] at h
          exact Option.noConfusion h
        · simp only [hg0] at h
          rcases hc1 : BestFinishes.calcFuel n pool (tts.set idx v0) with _ | r1
          · simp only [hc1] at h
            exact Option.noConfusion h
          · obtain ⟨bf1, tts1⟩ := r1
            simp only [hc1] at h
            rcases hg1 : tts1.get? (idx * 2 + 1) with _ | v1
            · simp only [hg1] at h
              exact Option.noConfusion h
            · simp only [hg1] at h
              rcases hc2 : BestFinishes.calcFuel n pool (tts1.set idx v1) with _ | r2
              · simp only [hc2] at h
                exact Option.noConfusion h
              · obtain ⟨bf2, ttsb⟩ := r2
                simp only [hc2, Option.some.injEq, Prod.mk.injEq] at h
                rw [← h.1]
                exact merge_le4 (merge_le4 new_le4 (ih pool _ bf1 tts1 hc1))
                  (ih pool _ bf2 ttsb hc2)

/-- Claim C1, evaluated at a failing input: on the partially-settled outcome
state whose only unsettled game among 1..63 is the first-round game 63
(settled mask `COMPLETE_MASK` minus bit 63), `BestFinishes::calc` with a
one-bracket pool does not return a rank record: the branching step reads index
`63 * 2 = 126` of the 64-entry slot table, out of bounds (a panic, `none` in
this embedding) — refuting the claim that the table accesses stay in bounds
and that `calc` is total over all partially-settled states. -/
theorem claim_C1_panic_eval :
    BestFinishes.calcRun [⟨0⟩] (decision_team_slots 0 0x7FFFFFFFFFFFFFFE) = none := by
  rfl

/-- Claim C2 is false as stated: with settled mask having bits
{1, 2, 4, 8, 16, 32} and decisions 0, game 1 is settled and its child game 3
has an absent decoded identity, yet game 1's identity is `some 64` (the codec
only consults the selected child, game 2). -/
theorem claim_C2_counterexample :
    bitSet (2 + 4 + 16 + 256 + 65536 + 4294967296) 1 = true ∧
    (decision_team_slots 0 (2 + 4 + 16 + 256 + 65536 + 4294967296)).getD 3 none = none ∧
    (decision_team_slots 0 (2 + 4 + 16 + 256 + 65536 + 4294967296)).getD 1 none = some 64 := by
  decide

/-- Claim C2, amended: for every settled internal game `i < 32`, if the
*selected* child `2*i + d` (the child chosen by game `i`'s decision bit) has an
absent decoded identity, then game `i`'s decoded identity is absent. -/
theorem claim_C2_amended (d m i : Nat) (h1 : 1 ≤ i) (h2 : i < 32)
    (hset : bitSet m i = true)
    (hchild : (decision_team_slots d m).getD (i * 2 + decBit d i) none = none) :
    (decision_team_slots d m).getD i none = none := by
  rw [dts_getD d m i h1 (by omega), hset, if_pos rfl, if_neg (show ¬ 32 ≤ i by omega)]
  exact hchild

/-- Claim C2 witness: with only game 1 settled (mask 2, decisions 0) the
selected child, game 2, is unresolved, and indeed game 1 decodes to absent. -/
theorem claim_C2_witness : (decision_team_slots 0 2).getD 1 none = none :=
  claim_C2_amended 0 2 1 (by decide) (by decide) (by decide) (by decide)

/-- Claim C4: `decision_team_slots` records, for each settled game `i` with
decision bit `d` and `position = 2*i + d`: the identity `position` itself when
`i ≥ 32`, and otherwise the final table's entry for game `position` (the
selected child, processed earlier by the 63-down-to-1 loop); every unsettled
game's entry is absent, and index 0 is always absent. -/
theorem claim_C4 (d m : Nat) :
    (decision_team_slots d m).getD 0 none = none ∧
    (∀ i, 1 ≤ i → i ≤ 63 → bitSet m i = false →
      (decision_team_slots d m).getD i none = none) ∧
    (∀ i, 32 ≤ i → i ≤ 63 → bitSet m i = true →
      (decision_team_slots d m).getD i none = some (i * 2 + decBit d i)) ∧
    (∀ i, 1 ≤ i → i < 32 → bitSet m i = true →
      (decision_team_slots d m).getD i none
        = (decision_team_slots d m).getD (i * 2 + decBit d i) none) := by
  refine ⟨dts_getD_zero d m, ?_, ?_, ?_⟩
  · intro i h1 h2 hm
    rw [dts_getD d m i h1 h2, hm]
    simp
  · intro i h32 h63 hm
    rw [dts_getD d m i (by omega) h63, hm]
    simp [h32]
  · intro i h1 h31 hm
    rw [dts_getD d m i h1 (by omega), hm]
    simp [show ¬ 32 ≤ i by omega]

/-- Claim C4 witness: under decisions 5 and the complete mask, first-round game
40 decodes to its own slot `80 = 40 * 2 + 0`, and internal game 7 decodes to
the entry of its selected child, game 14. -/
theorem claim_C4_witness :
    (decision_team_slots 5 COMPLETE_MASK).getD 40 none = some 80 ∧
    (decision_team_slots 5 COMPLETE_MASK).getD 7 none
      = (decision_team_slots 5 COMPLETE_MASK).getD 14 none := by
  constructor
  · exact ((claim_C4 5 COMPLETE_MASK).2.2.1 40 (by decide) (by decide) (by decide)).trans
      (by decide)
  · exact ((claim_C4 5 COMPLETE_MASK).2.2.2 7 (by decide) (by decide) (by decide)).trans
      (by decide)

/-- Claim C5: `points_for_decisions` on two decoded tables is exactly the sum,
over game indices 1..63 where both tables hold equal resolved identities, of
`POINTS_PER_ROUND[round_of i] + SEED_ORDER[identity % 16]` (absent or unequal
indices contribute 0); `round_of` maps first-round games 32..63 to round 1 and
the championship game 1 to round 6, and the base values for rounds 1..6 are
`[1, 2, 3, 5, 8, 13]`. -/
theorem claim_C5 (b : Bracket) (d m : Nat) :
    b.points_for_decisions (decision_team_slots d m)
      = Finset.sum (Finset.Icc 1 63) (fun i =>
          match (decision_team_slots d m).getD i none,
              (decision_team_slots b.decisions COMPLETE_MASK).getD i none with
          | some t, some bb =>
            if t = bb then
              POINTS_PER_ROUND.getD (round_num_for_slot i) 0 + SEED_ORDER.getD (bb % 16) 0
            else 0
          | _, _ => 0) ∧
    (∀ i, 32 ≤ i → i ≤ 63 → round_num_for_slot i = 1) ∧
    round_num_for_slot 1 = 6 ∧
    (∀ r, 1 ≤ r → r ≤ 6 →
      POINTS_PER_ROUND.getD r 0 = [1, 2, 3, 5, 8, 13].getD (r - 1) 0) := by
  refine ⟨?_, ?_, by decide, ?_⟩
  · rw [points_eq_sum, dts_length]
    have h0 : pointContrib b (decision_team_slots d m) 0 = 0 := by
      unfold pointContrib pointG
      rw [dts_getD_zero]
    rw [Finset.range_eq_Ico, Finset.sum_eq_sum_Ico_succ_bot (by omega), h0, Nat.zero_add,
      show (64 : ℕ) = 63 + 1 from rfl, Nat.Ico_succ_right]
    rfl
  · intro i h32 h63
    have hh : ∀ j : Nat, j < 64 → 32 ≤ j → round_num_for_slot j = 1 := by decide
    exact hh i (by omega) h32
  · intro r h1 h6
    have hh : ∀ j : Nat, j < 7 → 1 ≤ j →
        POINTS_PER_ROUND.getD j 0 = [1, 2, 3, 5, 8, 13].getD (j - 1) 0 := by decide
    exact hh r (by omega) h1

/-- Claim C5 witness: the round map and base values at concrete points, through
the theorem. -/
theorem claim_C5_witness :
    round_num_for_slot 40 = 1 ∧ round_num_for_slot 1 = 6 ∧
    POINTS_PER_ROUND.getD 3 0 = [1, 2, 3, 5, 8, 13].getD 2 0 :=
  ⟨(claim_C5 ⟨0⟩ 0 0).2.1 40 (by decide) (by decide),
   (claim_C5 ⟨0⟩ 0 0).2.2.1,
   (claim_C5 ⟨0⟩ 0 0).2.2.2 3 (by decide) (by decide)⟩

/-- Claim C7: a fully-settled bracket scored against its own decoded table
attains the maximum: every game index 1..63 holds a resolved identity under
`COMPLETE_MASK`, and the score is the full sum of
`POINTS_PER_ROUND[round_of i] + seed_of(identity)` over all 63 games. -/
theorem claim_C7 (b : Bracket) :
    (∀ i, 1 ≤ i → i ≤ 63 →
      ((decision_team_slots b.decisions COMPLETE_MASK).getD i none).isSome = true) ∧
    b.points_for_decisions (decision_team_slots b.decisions COMPLETE_MASK)
      = Finset.sum (Finset.Icc 1 63) (fun i =>
          POINTS_PER_ROUND.getD (round_num_for_slot i) 0 +
            seed_for_slot
              (((decision_team_slots b.decisions COMPLETE_MASK).getD i none).getD 0)) := by
  refine ⟨dts_CM_isSome b.decisions, ?_⟩
  rw [points_eq_sum, dts_length]
  have h0 : pointContrib b (decision_team_slots b.decisions COMPLETE_MASK) 0 = 0 := by
    unfold pointContrib pointG
    rw [dts_getD_zero]
  rw [Finset.range_eq_Ico, Finset.sum_eq_sum_Ico_succ_bot (by omega), h0, Nat.zero_add,
    show (64 : ℕ) = 63 + 1 from rfl, Nat.Ico_succ_right]
  refine Finset.sum_congr rfl (fun i hi => ?_)
  rw [Finset.mem_Icc] at hi
  obtain ⟨v, hv⟩ := Option.isSome_iff_exists.mp (dts_CM_isSome b.decisions i hi.1 hi.2)
  unfold pointContrib pointG
  rw [hv]
  simp

/-- Claim C7 witness: resolvedness at a concrete slot of a concrete bracket,
through the theorem. -/
theorem claim_C7_witness :
    ((decision_team_slots 123456789 COMPLETE_MASK).getD 5 none).isSome = true :=
  (claim_C7 ⟨123456789⟩).1 5 (by decide) (by decide)

/-- Claim C6: `merge(a, b)` maps every bracket to the minimum of its ranks in
`a` and `b` — a bracket present on one side only keeps that side's rank, and a
bracket absent from both stays absent — so its key set is the union of the two
key sets.  (The Nodup hypothesis is the HashMap representation invariant of
`b`'s association list.) -/
theorem claim_C6 (a b : BestFinishes)
    (hnodup : (b.possible_finishes.map Prod.fst).Nodup) (k : Bracket) :
    BFlookup (a.merge b).possible_finishes k
      = minRank (BFlookup a.possible_finishes k) (BFlookup b.possible_finishes k) :=
  merge_foldl_lookup b.possible_finishes a.possible_finishes hnodup k

/-- Claim C6 witness: the example of the claim — merging {A:1, B:3} with
{A:0, C:2} yields {A:0, B:3, C:2} (and a key absent from both stays absent). -/
theorem claim_C6_witness :
    BFlookup (BestFinishes.merge ⟨[(⟨1⟩, 1), (⟨2⟩, 3)]⟩
      ⟨[(⟨1⟩, 0), (⟨3⟩, 2)]⟩).possible_finishes ⟨1⟩ = some 0 ∧
    BFlookup (BestFinishes.merge ⟨[(⟨1⟩, 1), (⟨2⟩, 3)]⟩
      ⟨[(⟨1⟩, 0), (⟨3⟩, 2)]⟩).possible_finishes ⟨2⟩ = some 3 ∧
    BFlookup (BestFinishes.merge ⟨[(⟨1⟩, 1), (⟨2⟩, 3)]⟩
      ⟨[(⟨1⟩, 0), (⟨3⟩, 2)]⟩).possible_finishes ⟨3⟩ = some 2 ∧
    BFlookup (BestFinishes.merge ⟨[(⟨1⟩, 1), (⟨2⟩, 3)]⟩
      ⟨[(⟨1⟩, 0), (⟨3⟩, 2)]⟩).possible_finishes ⟨4⟩ = none := by
  refine ⟨?_, ?_, ?_, ?_⟩ <;>
    exact (claim_C6 ⟨[(⟨1⟩, 1), (⟨2⟩, 3)]⟩ ⟨[(⟨1⟩, 0), (⟨3⟩, 2)]⟩
      (by decide) _).trans (by decide)

/-- Claim C8: whenever `calc` returns (instead of panicking), the slot-table
buffer it was given is returned unchanged — each branch writes the chosen
child's value into the highest absent slot, recurses, and restores the slot to
absent before returning. -/
theorem claim_C8 (fuel : Nat) (pool : List Bracket) (tts : List (Option Nat))
    (bf : BestFinishes) (ttsf : List (Option Nat))
    (h : BestFinishes.calcFuel fuel pool tts = some (bf, ttsf)) : ttsf = tts :=
  calcFuel_table fuel pool tts bf ttsf h

/-- Claim C8 witness: on the table with only slot 1 absent, `calc` returns and
the final buffer equals the initial one. -/
theorem claim_C8_witness :
    ((BestFinishes.calcFuel 64 [] c8Table).getD (BestFinishes.new, [])).2 = c8Table :=
  claim_C8 64 [] c8Table
    ((BestFinishes.calcFuel 64 [] c8Table).getD (BestFinishes.new, [])).1
    ((BestFinishes.calcFuel 64 [] c8Table).getD (BestFinishes.new, [])).2
    (by rfl)

/-- Claim C9, evaluated at a failing input: with an *empty* bracket pool and
the outcome state whose only unsettled game is the first-round game 62, `calc`
does not return the empty rank record — it reads index `62 * 2 = 124` of the
64-entry table, out of bounds (a panic, `none` here), refuting the claim for
arbitrary partial outcome states. -/
theorem claim_C9_panic_eval :
    BestFinishes.calcRun [] (decision_team_slots 0 0xBFFFFFFFFFFFFFFE) = none := by
  rfl

/-- Claim C10: every `BestFinishes` produced by `calc`, `new`, or `merge` of
such values has all ranks in 0..=4, and on any such value `rankings` succeeds
(no out-of-bounds bucket index) and partitions exactly the recorded brackets
into the five rank tiers. -/
theorem claim_C10 :
    (∀ (fuel : Nat) (pool : List Bracket) (tts : List (Option Nat)) (bf : BestFinishes)
        (ttsf : List (Option Nat)),
      BestFinishes.calcFuel fuel pool tts = some (bf, ttsf) → RanksLe4 bf) ∧
    RanksLe4 BestFinishes.new ∧
    (∀ a b : BestFinishes, RanksLe4 a → RanksLe4 b → RanksLe4 (a.merge b)) ∧
    (∀ bf : BestFinishes, RanksLe4 bf →
      ∃ parts, bf.rankings = some parts ∧ parts.length = 5 ∧
        ∀ (br : Bracket) (r : Nat), r < 5 →
          (br ∈ parts.getD r [] ↔ (br, r) ∈ bf.possible_finishes)) :=
  ⟨calcFuel_le4, new_le4, fun _ _ ha hb => merge_le4 ha hb, fun _ h => rankings_of_le4 h⟩

/-- Claim C3: at a fully-resolved leaf (every slot 1..63 of the table holds a
resolved identity), `calc` sorts the pool by score descending and assigns
competition ranks — rank 0 to the top score, ties share a rank, and each next
distinct score takes its 0-based position in the sorted sequence — recording
only brackets of rank ≤ 4: for any six brackets whose scores against the
resolved outcome are [50, 50, 40, 30, 30, 30], the recorded ranks are
[0, 0, 2, 3, 3, 3]. -/
theorem claim_C3 (b1 b2 b3 b4 b5 b6 : Bracket) (t : List (Option Nat))
    (hres : ∀ i, i < t.length → 1 ≤ i → (t.getD i none).isSome = true)
    (h1 : b1.points_for_decisions t = 50) (h2 : b2.points_for_decisions t = 50)
    (h3 : b3.points_for_decisions t = 40) (h4 : b4.points_for_decisions t = 30)
    (h5 : b5.points_for_decisions t = 30) (h6 : b6.points_for_decisions t = 30) :
    ∃ bf : BestFinishes,
      BestFinishes.calcRun [b1, b2, b3, b4, b5, b6] t = some (bf, t) ∧
      BFlookup bf.possible_finishes b1 = some 0 ∧
      BFlookup bf.possible_finishes b2 = some 0 ∧
      BFlookup bf.possible_finishes b3 = some 2 ∧
      BFlookup bf.possible_finishes b4 = some 3 ∧
      BFlookup bf.possible_finishes b5 = some 3 ∧
      BFlookup bf.possible_finishes b6 = some 3 := by
  have hmap : [b1, b2, b3, b4, b5, b6].map (fun b => (b, b.points_for_decisions t))
      = [(b1, 50), (b2, 50), (b3, 40), (b4, 30), (b5, 30), (b6, 30)] := by
    simp [h1, h2, h3, h4, h5, h6]
  have hsort :
      sortByScoreDesc [(b1, 50), (b2, 50), (b3, 40), (b4, 30), (b5, 30), (b6, 30)]
        = [(b1, 50), (b2, 50), (b3, 40), (b4, 30), (b5, 30), (b6, 30)] := by
    simp [sortByScoreDesc, insertScoredDesc]
  have hloop :
      rankLoop [(b1, 50), (b2, 50), (b3, 40), (b4, 30), (b5, 30), (b6, 30)] 0 0 none []
        = BFinsert (BFinsert (BFinsert (BFinsert (BFinsert
            (BFinsert [] b1 0) b2 0) b3 2) b4 3) b5 3) b6 3 := by
    simp [rankLoop, rankUpd]
  have hleafpf : (BestFinishes.calcLeaf [b1, b2, b3, b4, b5, b6] t).possible_finishes
      = BFinsert (BFinsert (BFinsert (BFinsert (BFinsert
          (BFinsert [] b1 0) b2 0) b3 2) b4 3) b5 3) b6 3 := by
    unfold BestFinishes.calcLeaf
    rw [hmap, hsort, hloop]
  have hne : ∀ (x y : Bracket) (sx sy : Nat), x.points_for_decisions t = sx →
      y.points_for_decisions t = sy → sx ≠ sy → ¬ x = y := by
    intro x y sx sy hx hy hss e
    exact hss (by rw [← hx, ← hy, e])
  have n13 := hne b1 b3 50 40 h1 h3 (by norm_num)
  have n14 := hne b1 b4 50 30 h1 h4 (by norm_num)
  have n15 := hne b1 b5 50 30 h1 h5 (by norm_num)
  have n16 := hne b1 b6 50 30 h1 h6 (by norm_num)
  have n23 := hne b2 b3 50 40 h2 h3 (by norm_num)
  have n24 := hne b2 b4 50 30 h2 h4 (by norm_num)
  have n25 := hne b2 b5 50 30 h2 h5 (by norm_num)
  have n26 := hne b2 b6 50 30 h2 h6 (by norm_num)
  have n34 := hne b3 b4 40 30 h3 h4 (by norm_num)
  have n35 := hne b3 b5 40 30 h3 h5 (by norm_num)
  have n36 := hne b3 b6 40 30 h3 h6 (by norm_num)
  refine ⟨BestFinishes.calcLeaf [b1, b2, b3, b4, b5, b6] t,
    calcFuel_leaf [b1, b2, b3, b4, b5, b6] t 63 (rpositionNone_resolved hres),
    ?_, ?_, ?_, ?_, ?_, ?_⟩
  · rw [hleafpf, BFlookup_insert, if_neg n16, BFlookup_insert, if_neg n15,
      BFlookup_insert, if_neg n14, BFlookup_insert, if_neg n13, BFlookup_insert]
    by_cases h12 : b1 = b2
    · rw [if_pos h12]
    · rw [if_neg h12, BFlookup_insert, if_pos rfl]
  · rw [hleafpf, BFlookup_insert, if_neg n26, BFlookup_insert, if_neg n25,
      BFlookup_insert, if_neg n24, BFlookup_insert, if_neg n23,
      BFlookup_insert, if_pos rfl]
  · rw [hleafpf, BFlookup_insert, if_neg n36, BFlookup_insert, if_neg n35,
      BFlookup_insert, if_neg n34, BFlookup_insert, if_pos rfl]
  · rw [hleafpf, BFlookup_insert]
    by_cases h46 : b4 = b6
    · rw [if_pos h46]
    · rw [if_neg h46, BFlookup_insert]
      by_cases h45 : b4 = b5
      · rw [if_pos h45]
      · rw [if_neg h45, BFlookup_insert, if_pos rfl]
  · rw [hleafpf, BFlookup_insert]
    by_cases h56 : b5 = b6
    · rw [if_pos h56]
    · rw [if_neg h56, BFlookup_insert, if_pos rfl]
  · rw [hleafpf, BFlookup_insert, if_pos rfl]

/-- Claim C3 witness: six concrete brackets realizing the scores
[50, 50, 40, 30, 30, 30] against the concrete resolved outcome `c3Table`
(each bracket agrees with the outcome exactly on a chosen set of first-round
games, whose contributions sum to its score). -/
theorem claim_C3_witness :
    ∃ bf : BestFinishes,
      BestFinishes.calcRun
        [⟨0xFFFFFB0000000000⟩, ⟨0xFFFBFF0000000000⟩, ⟨0xFFFFFF2000000000⟩,
         ⟨0xFFFFFF6100000000⟩, ⟨0xFFFFFFA900000000⟩, ⟨0xFFFFFFB000000000⟩] c3Table
        = some (bf, c3Table) ∧
      BFlookup bf.possible_finishes ⟨0xFFFFFB0000000000⟩ = some 0 ∧
      BFlookup bf.possible_finishes ⟨0xFFFBFF0000000000⟩ = some 0 ∧
      BFlookup bf.possible_finishes ⟨0xFFFFFF2000000000⟩ = some 2 ∧
      BFlookup bf.possible_finishes ⟨0xFFFFFF6100000000⟩ = some 3 ∧
      BFlookup bf.possible_finishes ⟨0xFFFFFFA900000000⟩ = some 3 ∧
      BFlookup bf.possible_finishes ⟨0xFFFFFFB000000000⟩ = some 3 :=
  claim_C3 ⟨0xFFFFFB0000000000⟩ ⟨0xFFFBFF0000000000⟩ ⟨0xFFFFFF2000000000⟩
    ⟨0xFFFFFF6100000000⟩ ⟨0xFFFFFFA900000000⟩ ⟨0xFFFFFFB000000000⟩ c3Table
    (by decide) (by decide) (by decide) (by decide) (by decide) (by decide) (by decide)

/-- Claim C10 witness: a concrete merge keeps ranks within 0..=4, and
`rankings` succeeds on a concrete record with a rank-4 entry. -/
theorem claim_C10_witness :
    RanksLe4 (BestFinishes.merge ⟨[(⟨1⟩, 2)]⟩ ⟨[(⟨2⟩, 0), (⟨1⟩, 1)]⟩) ∧
    (BestFinishes.rankings ⟨[(⟨3⟩, 4)]⟩).isSome = true := by
  constructor
  · exact claim_C10.2.2.1 ⟨[(⟨1⟩, 2)]⟩ ⟨[(⟨2⟩, 0), (⟨1⟩, 1)]⟩ (by decide) (by decide)
  · obtain ⟨parts, hp, -, -⟩ := claim_C10.2.2.2 ⟨[(⟨3⟩, 4)]⟩ (by decide)
    rw [hp]
    rfl

end Madness
